import Mathlib

/-!
Shallow embedding of `src/solution/services/stammering_service.py`
(`StammeringDetector` and the module-level entry `detect_stammering`).

Text is modelled as `List Char`.  Python's per-character primitives
`str.lower`, `str.upper`, `str.isalnum` and the whitespace class used by
`str.split` are modelled for the ASCII range by explicit functions below.
All counts are natural numbers; the single fractional threshold
`count > max_source_repetition * 1.5` of the Python code is embedded as the
exact comparison `3 * max_source_repetition < 2 * count`.
-/

namespace Stammering

/-- Model of Python `str.lower`, one character at a time (ASCII letters). -/
def lowerChar : Char → Char
  | 'A' => 'a'
  | 'B' => 'b'
  | 'C' => 'c'
  | 'D' => 'd'
  | 'E' => 'e'
  | 'F' => 'f'
  | 'G' => 'g'
  | 'H' => 'h'
  | 'I' => 'i'
  | 'J' => 'j'
  | 'K' => 'k'
  | 'L' => 'l'
  | 'M' => 'm'
  | 'N' => 'n'
  | 'O' => 'o'
  | 'P' => 'p'
  | 'Q' => 'q'
  | 'R' => 'r'
  | 'S' => 's'
  | 'T' => 't'
  | 'U' => 'u'
  | 'V' => 'v'
  | 'W' => 'w'
  | 'X' => 'x'
  | 'Y' => 'y'
  | 'Z' => 'z'
  | c => c

/-- Simple single-character uppercase mapping (ASCII letters); the full
string-valued model of Python `str.upper` is `upperMap` below, which extends
this one with the length-changing case mapping of 'ß'. -/
def upperChar : Char → Char
  | 'a' => 'A'
  | 'b' => 'B'
  | 'c' => 'C'
  | 'd' => 'D'
  | 'e' => 'E'
  | 'f' => 'F'
  | 'g' => 'G'
  | 'h' => 'H'
  | 'i' => 'I'
  | 'j' => 'J'
  | 'k' => 'K'
  | 'l' => 'L'
  | 'm' => 'M'
  | 'n' => 'N'
  | 'o' => 'O'
  | 'p' => 'P'
  | 'q' => 'Q'
  | 'r' => 'R'
  | 's' => 'S'
  | 't' => 'T'
  | 'u' => 'U'
  | 'v' => 'V'
  | 'w' => 'W'
  | 'x' => 'X'
  | 'y' => 'Y'
  | 'z' => 'Z'
  | c => c

/-- Whitespace class of Python `str.split` (ASCII whitespace). -/
def isSpaceChar (c : Char) : Bool :=
  c == ' ' || c == '\t' || c == '\n' || c == '\r' || c == '\x0b' || c == '\x0c'

/-- Model of Python `str.isalnum` for a single character: the ASCII ranges
plus 'ß', the one non-ASCII character appearing in this development (it is
alphanumeric in Python). -/
def isAlnumChar (c : Char) : Bool :=
  ('a' ≤ c && c ≤ 'z') || ('A' ≤ c && c ≤ 'Z') || ('0' ≤ c && c ≤ '9') || c == 'ß'

/-- Model of Python `str.upper` on one character as a string-valued map:
Python applies the full Unicode uppercase mapping, under which a character
may expand to several characters — in particular 'ß' uppercases to "SS".
Modelled here for the ASCII range together with 'ß'; other characters are
kept as themselves. -/
def upperMap (c : Char) : List Char :=
  if c = 'ß' then ['S', 'S'] else [upperChar c]

/-- Model of Python `str.upper` on a whole text: concatenate the per-character
full case mappings. -/
def pyUpper (text : List Char) : List Char :=
  (text.map upperMap).flatten

/-- Every character of the text is ASCII (code point below 128). -/
def isAsciiText (text : List Char) : Bool :=
  text.all (fun c => decide (c.toNat < 128))

theorem lowerChar_upperChar (c : Char) : lowerChar (upperChar c) = lowerChar c := by
  unfold upperChar
  split <;> rfl

theorem isSpaceChar_upperChar (c : Char) : isSpaceChar (upperChar c) = isSpaceChar c := by
  unfold upperChar
  split <;> rfl

/-- Accumulator worker for `pySplit`: `cur` holds the reversed current token. -/
def splitAux : List Char → List Char → List (List Char)
  | [], cur => if cur = [] then [] else [cur.reverse]
  | c :: rest, cur =>
    if isSpaceChar c then
      if cur = [] then splitAux rest []
      else cur.reverse :: splitAux rest []
    else splitAux rest (c :: cur)

/-- Model of Python `text.split()`: split on whitespace runs, dropping empties. -/
def pySplit (text : List Char) : List (List Char) := splitAux text []

/-- Model of `StammeringDetector._tokenize`: split on whitespace, lowercase each
token.  (`split()` never yields empty strings, so the Python `if t` filter is
vacuous.) -/
def tokenize (text : List Char) : List (List Char) :=
  (pySplit text).map (fun t => t.map lowerChar)

theorem splitAux_map_upper (l : List Char) (cur : List Char) :
    splitAux (l.map upperChar) (cur.map upperChar) =
      (splitAux l cur).map (fun t => t.map upperChar) := by
  induction l generalizing cur with
  | nil =>
    by_cases h : cur = []
    · subst h; simp [splitAux]
    · have h2 : cur.map upperChar ≠ [] := by simpa using h
      simp only [List.map_nil, splitAux, if_neg h, if_neg h2]
      simp
  | cons c rest ih =>
    simp only [List.map_cons, splitAux, isSpaceChar_upperChar]
    by_cases hsp : isSpaceChar c = true
    · simp only [hsp, if_true]
      by_cases h : cur = []
      · subst h
        simpa using ih []
      · have h2 : cur.map upperChar ≠ [] := by simpa using h
        simp only [if_neg h, if_neg h2]
        have h3 := ih []
        simp only [List.map_nil] at h3
        simp [h3, List.map_reverse]
    · simp only [hsp, if_false]
      simpa using ih (c :: cur)

theorem tokenize_map_upper (text : List Char) :
    tokenize (text.map upperChar) = tokenize text := by
  unfold tokenize pySplit
  have h := splitAux_map_upper text []
  simp only [List.map_nil] at h
  rw [h, List.map_map]
  apply List.map_congr_left
  intro t _
  simp only [Function.comp_apply, List.map_map]
  apply List.map_congr_left
  intro c _
  exact lowerChar_upperChar c

/-! Configuration constants of `detect_stammering`
(`StammeringDetector(min_repetitions=3, max_ngram_size=5)`). -/

def minRepetitions : ℕ := 3

def maxNgramSize : ℕ := 5

/-- Model of `StammeringDetector._get_ngrams`:
`[tuple(tokens[i:i+n]) for i in range(len(tokens) - n + 1)]`. -/
def getNgrams (tokens : List (List Char)) (n : ℕ) : List (List (List Char)) :=
  (List.range (tokens.length + 1 - n)).map (fun i => (tokens.drop i).take n)

/-- Model of `max(source_ngram_counts.values()) if source_ngram_counts else 0`:
the largest occurrence count of any n-gram of the list (0 on an empty list). -/
def maxCount (l : List (List (List Char))) : ℕ :=
  (l.map (fun g => l.count g)).foldr max 0

/-- Model of the frequency loop of `StammeringDetector._has_ngram_repetition`
(the `Counter` loop).  The Python `count > max_source_repetition * 1.5`
comparison is embedded exactly as `3 * max_source_repetition < 2 * count`;
the `n > 1` / `n == 1` conditional of the source is kept, with its two
(textually identical) threshold tests. -/
def freqCheck (tN sN : List (List (List Char))) (n : ℕ) : Bool :=
  tN.any (fun g =>
    decide (minRepetitions ≤ tN.count g) &&
      (if 1 < n then decide (3 * maxCount sN < 2 * tN.count g)
       else decide (3 * maxCount sN < 2 * tN.count g)))

/-- Fold step of `StammeringDetector._count_max_consecutive`:
state is `(max_count, current_count)`. -/
def cmcStep (target : List (List Char)) (p : ℕ × ℕ) (g : List (List Char)) : ℕ × ℕ :=
  if g = target then (max p.1 (p.2 + 1), p.2 + 1) else (p.1, 0)

/-- Model of `StammeringDetector._count_max_consecutive`. -/
def countMaxConsecutive (l : List (List (List Char))) (target : List (List Char)) : ℕ :=
  (l.foldl (cmcStep target) (0, 0)).1

/-- Fold step of `StammeringDetector._count_max_consecutive_any`:
state is `(max_count, current_count, prev_ngram)`. -/
def cmcAnyStep (p : ℕ × ℕ × List (List Char)) (g : List (List Char)) : ℕ × ℕ × List (List Char) :=
  if g = p.2.2 then (max p.1 (p.2.1 + 1), p.2.1 + 1, p.2.2) else (p.1, 1, g)

/-- Model of `StammeringDetector._count_max_consecutive_any` (0 on `[]`). -/
def countMaxConsecutiveAny : List (List (List Char)) → ℕ
  | [] => 0
  | g :: rest => (rest.foldl cmcAnyStep (1, 1, g)).1

/-- Model of the consecutive-window loop of
`StammeringDetector._has_ngram_repetition`: slide a window of
`min_repetitions` consecutive n-grams over the translated sequence;
`len(set(window)) == 1` is modelled as `window.dedup.length = 1` and
`window[0]` as `window.headD []`. -/
def consecCheck (tN sN : List (List (List Char))) : Bool :=
  (List.range (tN.length + 1 - minRepetitions)).any (fun i =>
    let window := (tN.drop i).take minRepetitions
    if window.dedup.length = 1 then
      if minRepetitions ≤ countMaxConsecutiveAny sN then
        decide (countMaxConsecutiveAny sN * 2 < countMaxConsecutive tN (window.headD []))
      else true
    else false)

/-- Model of `StammeringDetector._has_ngram_repetition`: the frequency loop
runs first; if it does not return, the consecutive-window loop runs. -/
def hasNgramRepetition (tTokens sTokens : List (List Char)) (n : ℕ) : Bool :=
  freqCheck (getNgrams tTokens n) (getNgrams sTokens n) n
    || consecCheck (getNgrams tTokens n) (getNgrams sTokens n)

/-- Model of `StammeringDetector._has_phrase_repetition`:
`for n in range(1, min(max_ngram_size + 1, len(translated_tokens)))`. -/
def hasPhraseRepetition (translated source : List Char) : Bool :=
  (List.range' 1 (min (maxNgramSize + 1) (tokenize translated).length - 1)).any
    (fun n => hasNgramRepetition (tokenize translated) (tokenize source) n)

/-- Maximal-run scanner, the model of what the regex `(.)\1{2,}` walks over:
`runsAux c k rest` extends the current run of character `c` (seen `k` times)
through `rest`. -/
def runsAux : Char → ℕ → List Char → List (Char × ℕ)
  | c, k, [] => [(c, k)]
  | c, k, d :: rest => if d = c then runsAux c (k + 1) rest else (c, k) :: runsAux d 1 rest

/-- Run decomposition of a character list into maximal `(char, length)` runs. -/
def runs : List Char → List (Char × ℕ)
  | [] => []
  | c :: rest => runsAux c 1 rest

/-- Score contribution of one maximal run: the regex only yields runs of
length at least 3, and the Python comprehension keeps those whose character
satisfies `isalnum`, summing the full match lengths. -/
def scoreEntry (p : Char × ℕ) : ℕ :=
  if 3 ≤ p.2 ∧ isAlnumChar p.1 then p.2 else 0

/-- Total elongation score of a text, computed on its lowercased characters
(model of the `sum(len(match.group()) ...)` expressions of
`StammeringDetector._has_excessive_elongation`). -/
def elongationScore (text : List Char) : ℕ :=
  ((runs (text.map lowerChar)).map scoreEntry).sum

/-- Model of `StammeringDetector._has_excessive_elongation`:
`translated_count > 40 and translated_count > source_count * 3`. -/
def hasExcessiveElongation (translated source : List Char) : Bool :=
  decide (40 < elongationScore translated) &&
    decide (3 * elongationScore source < elongationScore translated)

/-- Model of `StammeringDetector.detect`: the elongation check runs first and
short-circuits the n-gram loop. -/
def detect (source translated : List Char) : Bool :=
  hasExcessiveElongation translated source || hasPhraseRepetition translated source

/-- Model of the module-level entry `detect_stammering`, which instantiates
`StammeringDetector(min_repetitions=3, max_ngram_size=5)`. -/
def detect_stammering (source translated : List Char) : Bool :=
  detect source translated

/-! Collapsed variant of the detector: the `n > 1` / `n == 1` conditional of
the frequency loop replaced by its single common threshold rule. -/

def freqCheckCollapsed (tN sN : List (List (List Char))) : Bool :=
  tN.any (fun g =>
    decide (minRepetitions ≤ tN.count g) && decide (3 * maxCount sN < 2 * tN.count g))

def hasNgramRepetitionCollapsed (tTokens sTokens : List (List Char)) (n : ℕ) : Bool :=
  freqCheckCollapsed (getNgrams tTokens n) (getNgrams sTokens n)
    || consecCheck (getNgrams tTokens n) (getNgrams sTokens n)

def hasPhraseRepetitionCollapsed (translated source : List Char) : Bool :=
  (List.range' 1 (min (maxNgramSize + 1) (tokenize translated).length - 1)).any
    (fun n => hasNgramRepetitionCollapsed (tokenize translated) (tokenize source) n)

def detectCollapsed (source translated : List Char) : Bool :=
  hasExcessiveElongation translated source || hasPhraseRepetitionCollapsed translated source

/-! Spec-side description of elongation scoring: a decomposition of a text
into nonempty runs whose adjacent characters differ is exactly the
decomposition into maximal runs. -/

/-- Adjacent entries of a run list carry distinct characters. -/
def adjDistinct : List (Char × ℕ) → Bool
  | [] => true
  | [_] => true
  | p :: q :: rest => decide (p.1 ≠ q.1) && adjDistinct (q :: rest)

/-- Spec-side notion, written from the spec's words: `r` lists the maximal
runs of `l`, as `(character, run length)` pairs — the runs concatenate back
to `l`, every run is nonempty, and adjacent runs have distinct characters. -/
def isRunDecomp (l : List Char) (r : List (Char × ℕ)) : Bool :=
  decide ((r.map (fun p => List.replicate p.2 p.1)).flatten = l) &&
    r.all (fun p => decide (1 ≤ p.2)) && adjDistinct r

/-- Spec-side elongation score of a run decomposition: the sum of the full
lengths of the maximal runs of length at least 3 whose character is
alphanumeric. -/
def scoreOfRuns (r : List (Char × ℕ)) : ℕ :=
  (r.map scoreEntry).sum

/-- Appending `k` whitespace-separated copies of the word `w` after `t`. -/
def appendCopies (t w : List Char) (k : ℕ) : List Char :=
  t ++ (List.replicate k (' ' :: w)).flatten

/-! Characterizations of the frequency check and the consecutive-window
check, shared by several claims below. -/

theorem mem_le_foldr_max (x : ℕ) (xs : List ℕ) (h : x ∈ xs) : x ≤ xs.foldr max 0 := by
  induction xs with
  | nil => cases h
  | cons y ys ih =>
    rcases List.mem_cons.mp h with h1 | h2
    · subst h1; exact le_max_left _ _
    · exact le_trans (ih h2) (le_max_right _ _)

theorem count_le_maxCount (l : List (List (List Char))) (g : List (List Char)) (h : g ∈ l) :
    l.count g ≤ maxCount l := by
  apply mem_le_foldr_max
  exact List.mem_map.mpr ⟨g, h, rfl⟩

theorem freqCheck_eq_collapsed (tN sN : List (List (List Char))) (n : ℕ) :
    freqCheck tN sN n = freqCheckCollapsed tN sN := by
  unfold freqCheck freqCheckCollapsed
  simp only [ite_self]

theorem freqCheckCollapsed_iff (tN sN : List (List (List Char))) :
    freqCheckCollapsed tN sN = true ↔
      ∃ g ∈ tN, minRepetitions ≤ tN.count g ∧ 3 * maxCount sN < 2 * tN.count g := by
  simp [freqCheckCollapsed, List.any_eq_true]

theorem window3_iff (w : List (List (List Char))) (hw : w.length = 3) :
    w.dedup.length = 1 ↔ ∃ g, w = [g, g, g] := by
  match w, hw with
  | [a, b, c], _ =>
    have key : ([a, b, c] : List (List (List Char))).dedup.length = 1 ↔ (a = b ∧ b = c) := by
      by_cases hbc : b = c
      · subst hbc
        by_cases hab : a = b
        · subst hab
          simp [List.dedup_cons_of_mem]
        · rw [List.dedup_cons_of_not_mem (by simp [hab])]
          simp [List.dedup_cons_of_mem, hab]
      · by_cases hab : a = b
        · subst hab
          rw [List.dedup_cons_of_mem (by simp)]
          rw [List.dedup_cons_of_not_mem (by simp [hbc])]
          simp [hbc]
        · by_cases hac : a = c
          · subst hac
            rw [List.dedup_cons_of_mem (by simp)]
            rw [List.dedup_cons_of_not_mem (by simp [hbc])]
            simp [hbc]
          · rw [List.dedup_cons_of_not_mem (by simp [hab, hac])]
            rw [List.dedup_cons_of_not_mem (by simp [hbc])]
            simp [hab, hbc]
    rw [key]
    constructor
    · rintro ⟨h1, h2⟩
      exact ⟨c, by rw [h1, h2]⟩
    · rintro ⟨g, hg⟩
      injection hg with e1 rest
      injection rest with e2 rest2
      injection rest2 with e3 _
      exact ⟨by rw [e1, e2], by rw [e2, e3]⟩

theorem consecCheck_iff (tN sN : List (List (List Char))) :
    consecCheck tN sN = true ↔
      ∃ g, (∃ i, (tN.drop i).take 3 = [g, g, g]) ∧
        (3 ≤ countMaxConsecutiveAny sN →
          countMaxConsecutiveAny sN * 2 < countMaxConsecutive tN g) := by
  unfold consecCheck minRepetitions
  rw [List.any_eq_true]
  constructor
  · rintro ⟨i, hi, hbody⟩
    rw [List.mem_range] at hi
    have hlen : ((tN.drop i).take 3).length = 3 := by
      rw [List.length_take, List.length_drop]
      omega
    simp only at hbody
    by_cases hded : ((tN.drop i).take 3).dedup.length = 1
    · obtain ⟨g, hg⟩ := (window3_iff _ hlen).mp hded
      rw [if_pos hded, hg] at hbody
      refine ⟨g, ⟨i, hg⟩, fun hM => ?_⟩
      rw [if_pos hM] at hbody
      simpa using hbody
    · rw [if_neg hded] at hbody
      cases hbody
  · rintro ⟨g, ⟨i, heq⟩, himpl⟩
    have hlen3 : ((tN.drop i).take 3).length = 3 := by rw [heq]; rfl
    have hle : i < tN.length + 1 - 3 := by
      rw [List.length_take, List.length_drop] at hlen3
      omega
    refine ⟨i, List.mem_range.mpr hle, ?_⟩
    simp only [heq]
    have hded : ([g, g, g] : List (List (List Char))).dedup.length = 1 :=
      (window3_iff [g, g, g] rfl).mpr ⟨g, rfl⟩
    rw [if_pos hded]
    by_cases hM : 3 ≤ countMaxConsecutiveAny sN
    · rw [if_pos hM]
      simpa using himpl hM
    · rw [if_neg hM]

theorem hasPhraseRepetition_iff (translated source : List Char) :
    hasPhraseRepetition translated source = true ↔
      ∃ n, 1 ≤ n ∧ n < min (maxNgramSize + 1) (tokenize translated).length ∧
        hasNgramRepetition (tokenize translated) (tokenize source) n = true := by
  unfold hasPhraseRepetition
  rw [List.any_eq_true]
  constructor
  · rintro ⟨n, hmem, hp⟩
    rw [List.mem_range'_1] at hmem
    exact ⟨n, hmem.1, by omega, hp⟩
  · rintro ⟨n, h1, h2, hp⟩
    exact ⟨n, List.mem_range'_1.mpr ⟨h1, by omega⟩, hp⟩

theorem detect_iff (source translated : List Char) :
    detect source translated = true ↔
      (hasExcessiveElongation translated source = true ∨
        ∃ n, 1 ≤ n ∧ n < min (maxNgramSize + 1) (tokenize translated).length ∧
          hasNgramRepetition (tokenize translated) (tokenize source) n = true) := by
  unfold detect
  rw [Bool.or_eq_true, hasPhraseRepetition_iff]

theorem ratio_iff (c m : ℕ) : 3 * m < 2 * c ↔ (1.5 : ℚ) * (m : ℚ) < (c : ℚ) := by
  rw [show (1.5 : ℚ) = 3 / 2 by norm_num, div_mul_eq_mul_div, div_lt_iff₀ (by norm_num : (0 : ℚ) < 2)]
  constructor
  · intro h
    have h2 : ((3 * m : ℕ) : ℚ) < ((2 * c : ℕ) : ℚ) := by exact_mod_cast h
    push_cast at h2
    linarith
  · intro h
    have h2 : ((3 * m : ℕ) : ℚ) < ((2 * c : ℕ) : ℚ) := by push_cast; linarith
    exact_mod_cast h2

theorem hasNgramRepetition_eq_collapsed (tTokens sTokens : List (List Char)) (n : ℕ) :
    hasNgramRepetitionCollapsed tTokens sTokens n = hasNgramRepetition tTokens sTokens n := by
  unfold hasNgramRepetitionCollapsed hasNgramRepetition
  rw [freqCheck_eq_collapsed]

/-- C1: `detect(source, translated)` is true exactly when the elongation
check fires, or the n-gram loop fires for some size `n` actually examined;
moreover the elongation check alone forces `true` (it is checked first and
short-circuits the loop, which the `||` on `Bool` realizes). -/
theorem claim_C1 (source translated : List Char) :
    (detect source translated = true ↔
      (hasExcessiveElongation translated source = true ∨
        ∃ n, 1 ≤ n ∧ n < min (maxNgramSize + 1) (tokenize translated).length ∧
          hasNgramRepetition (tokenize translated) (tokenize source) n = true)) ∧
    (hasExcessiveElongation translated source = true → detect source translated = true) := by
  refine ⟨detect_iff source translated, fun h => ?_⟩
  unfold detect
  rw [h, Bool.true_or]

/-- C1 witness: on a concretely flagged pair, the elongation check fires and
forces the overall verdict. -/
theorem claim_C1_witness :
    hasExcessiveElongation (List.replicate 50 'z') [] = true ∧
      detect [] (List.replicate 50 'z') = true := by
  refine ⟨by decide, (claim_C1 [] (List.replicate 50 'z')).2 (by decide)⟩

/-- C2: at every size `n`, the frequency check fires exactly when some
distinct translated n-gram has occurrence count at least 3 exceeding
1.5 times the largest source n-gram count; the `n == 1` and `n > 1`
branches apply the identical rule, so the collapsed detector is
extensionally equal to the original. -/
theorem claim_C2 (source translated : List Char) (n : ℕ) :
    (freqCheck (getNgrams (tokenize translated) n) (getNgrams (tokenize source) n) n = true ↔
      ∃ g ∈ getNgrams (tokenize translated) n,
        3 ≤ (getNgrams (tokenize translated) n).count g ∧
          (1.5 : ℚ) * (maxCount (getNgrams (tokenize source) n) : ℚ) <
            ((getNgrams (tokenize translated) n).count g : ℚ)) ∧
    detectCollapsed source translated = detect source translated := by
  constructor
  · rw [freqCheck_eq_collapsed, freqCheckCollapsed_iff]
    unfold minRepetitions
    constructor
    · rintro ⟨g, hg, h3, hr⟩
      exact ⟨g, hg, h3, (ratio_iff _ _).mp hr⟩
    · rintro ⟨g, hg, h3, hr⟩
      exact ⟨g, hg, h3, (ratio_iff _ _).mpr hr⟩
  · unfold detectCollapsed detect hasPhraseRepetitionCollapsed hasPhraseRepetition
    simp only [hasNgramRepetition_eq_collapsed]

/-- C3: at every size `n`, the consecutive-window check fires exactly when
some value `g` fills a window of 3 consecutive translated n-grams and, in
case the longest consecutive run in the source n-gram sequence is at least
3, the longest consecutive run of `g` in the translated sequence exceeds
twice that source run; when the source run is below 3, such a window fires
immediately. -/
theorem claim_C3 (source translated : List Char) (n : ℕ) :
    consecCheck (getNgrams (tokenize translated) n) (getNgrams (tokenize source) n) = true ↔
      ∃ g, (∃ i, ((getNgrams (tokenize translated) n).drop i).take 3 = [g, g, g]) ∧
        (3 ≤ countMaxConsecutiveAny (getNgrams (tokenize source) n) →
          countMaxConsecutiveAny (getNgrams (tokenize source) n) * 2 <
            countMaxConsecutive (getNgrams (tokenize translated) n) g) :=
  consecCheck_iff _ _

/-- C5: the n-gram loop examines exactly the sizes `n` with
`1 ≤ n ≤ min 5 (len(translated_tokens) - 1)`; in particular a single-token
(or empty) translation undergoes no repetition check at all. -/
theorem claim_C5 (source translated : List Char) :
    (hasPhraseRepetition translated source = true ↔
      ∃ n, 1 ≤ n ∧ n ≤ min 5 ((tokenize translated).length - 1) ∧
        hasNgramRepetition (tokenize translated) (tokenize source) n = true) ∧
    ((tokenize translated).length ≤ 1 → hasPhraseRepetition translated source = false) := by
  constructor
  · rw [hasPhraseRepetition_iff]
    constructor
    · rintro ⟨n, h1, h2, hp⟩
      refine ⟨n, h1, ?_, hp⟩
      simp only [maxNgramSize] at h2
      omega
    · rintro ⟨n, h1, h2, hp⟩
      refine ⟨n, h1, ?_, hp⟩
      simp only [maxNgramSize]
      omega
  · intro hlen
    unfold hasPhraseRepetition
    have hz : min (maxNgramSize + 1) (tokenize translated).length - 1 = 0 := by
      simp only [maxNgramSize]
      omega
    rw [hz]
    rfl

/-- C5 witness: a single-token translation is never examined by the
repetition stage. -/
theorem claim_C5_witness :
    (tokenize (('h' : Char) :: ['i'])).length ≤ 1 ∧
      hasPhraseRepetition (('h' : Char) :: ['i']) (('y' : Char) :: ['o']) = false :=
  ⟨by decide, (claim_C5 (('y' : Char) :: ['o']) (('h' : Char) :: ['i'])).2 (by decide)⟩

/-! Lemmas on the maximal-run scanner, used to identify the scanner's output
with any decomposition into nonempty runs of pairwise-distinct adjacent
characters (the spec's description of maximal runs). -/

theorem runsAux_replicate (m : ℕ) (c : Char) (j : ℕ) (x : List Char) :
    runsAux c j (List.replicate m c ++ x) = runsAux c (j + m) x := by
  induction m generalizing j with
  | zero => simp
  | succ m ih =>
    rw [List.replicate_succ, List.cons_append]
    show (if c = c then runsAux c (j + 1) (List.replicate m c ++ x)
      else (c, j) :: runsAux c 1 (List.replicate m c ++ x)) = _
    rw [if_pos rfl, ih]
    congr 1
    omega

theorem runsAux_cons_ne (c : Char) (j : ℕ) (d : Char) (x : List Char) (h : d ≠ c) :
    runsAux c j (d :: x) = (c, j) :: runs (d :: x) := by
  show (if d = c then _ else (c, j) :: runsAux d 1 x) = _
  rw [if_neg h]
  rfl

theorem runs_of_decomp (r : List (Char × ℕ)) :
    ∀ l : List Char, isRunDecomp l r = true → runs l = r := by
  induction r with
  | nil =>
    intro l h
    simp only [isRunDecomp, Bool.and_eq_true, decide_eq_true_eq] at h
    have : l = [] := by simpa using h.1.1.symm
    rw [this]
    rfl
  | cons p r' ih =>
    rcases p with ⟨c, k⟩
    intro l h
    simp only [isRunDecomp, Bool.and_eq_true, decide_eq_true_eq, List.all_eq_true,
      List.map_cons, List.flatten_cons] at h
    obtain ⟨⟨hflat, hpos⟩, hadj⟩ := h
    have hk : 1 ≤ k := by
      have := hpos (c, k) (List.mem_cons_self _ _)
      simpa using this
    set rest := (r'.map (fun p => List.replicate p.2 p.1)).flatten with hrest
    have hrepl : List.replicate k c = c :: List.replicate (k - 1) c := by
      cases k with
      | zero => omega
      | succ k' => simp [List.replicate_succ]
    have hl : l = c :: (List.replicate (k - 1) c ++ rest) := by
      rw [← hflat, hrepl]
      rfl
    rw [hl]
    show runsAux c 1 (List.replicate (k - 1) c ++ rest) = (c, k) :: r'
    rw [runsAux_replicate]
    have hone : 1 + (k - 1) = k := by omega
    rw [hone]
    have hdecomp' : isRunDecomp rest r' = true := by
      simp only [isRunDecomp, Bool.and_eq_true, decide_eq_true_eq, List.all_eq_true]
      refine ⟨⟨by trivial, fun p hp => hpos p (List.mem_cons_of_mem _ hp)⟩, ?_⟩
      cases r' with
      | nil => rfl
      | cons q r'' =>
        simp only [adjDistinct, Bool.and_eq_true] at hadj
        exact hadj.2
    cases r' with
    | nil =>
      have : rest = [] := by simp [hrest]
      rw [this]
      rfl
    | cons q r'' =>
      rcases q with ⟨c', k'⟩
      have hk' : 1 ≤ k' := by
        have := hpos (c', k') (List.mem_cons_of_mem _ (List.mem_cons_self _ _))
        simpa using this
      have hne : c' ≠ c := by
        simp only [adjDistinct, Bool.and_eq_true, decide_eq_true_eq] at hadj
        exact fun e => hadj.1 e.symm
      have hrest2 : rest = c' :: (List.replicate (k' - 1) c' ++
          ((r''.map (fun p => List.replicate p.2 p.1)).flatten)) := by
        rw [hrest]
        simp only [List.map_cons, List.flatten_cons]
        cases k' with
        | zero => omega
        | succ k'' => simp [List.replicate_succ]
      rw [hrest2, runsAux_cons_ne _ _ _ _ hne, ← hrest2]
      have := ih rest hdecomp'
      rw [this]

/-- C4: the elongation check fires exactly when the translated score exceeds
40 and exceeds three times the source score, where each score is, per the
spec's description, the sum of the full lengths of the maximal runs of at
least 3 identical characters of the lowercased text whose character is
alphanumeric (runs are presented through any decomposition into nonempty
runs with distinct adjacent characters); an empty text scores 0. -/
theorem claim_C4 (source translated : List Char) (rt rs : List (Char × ℕ))
    (ht : isRunDecomp (translated.map lowerChar) rt = true)
    (hs : isRunDecomp (source.map lowerChar) rs = true) :
    (hasExcessiveElongation translated source = true ↔
      (40 < scoreOfRuns rt ∧ 3 * scoreOfRuns rs < scoreOfRuns rt)) ∧
    elongationScore [] = 0 := by
  have h1 : runs (translated.map lowerChar) = rt := runs_of_decomp rt _ ht
  have h2 : runs (source.map lowerChar) = rs := runs_of_decomp rs _ hs
  constructor
  · unfold hasExcessiveElongation elongationScore scoreOfRuns
    rw [h1, h2]
    simp
  · rfl

/-- C4 witness: a 50-character elongation against a 1-character source. -/
theorem claim_C4_witness :
    isRunDecomp ((List.replicate 50 'b').map lowerChar) [('b', 50)] = true ∧
    isRunDecomp ((('c' : Char) :: []).map lowerChar) [('c', 1)] = true ∧
    ((hasExcessiveElongation (List.replicate 50 'b') (('c' : Char) :: []) = true ↔
      (40 < scoreOfRuns [('b', 50)] ∧ 3 * scoreOfRuns [('c', 1)] < scoreOfRuns [('b', 50)])) ∧
    elongationScore [] = 0) :=
  ⟨by decide, by decide,
    claim_C4 (('c' : Char) :: []) (List.replicate 50 'b') [('b', 50)] [('c', 1)]
      (by decide) (by decide)⟩

/-- C6: the detector is total — n-gram generation on a token list shorter
than `n` yields the empty sequence, the maximum-consecutive-run computation
on an empty sequence returns 0, and `detect` always returns one of the two
booleans (in the embedding every function is total by construction). -/
theorem claim_C6 :
    (∀ (tokens : List (List Char)) (n : ℕ), tokens.length < n → getNgrams tokens n = []) ∧
    countMaxConsecutiveAny [] = 0 ∧
    (∀ source translated : List Char,
      detect source translated = true ∨ detect source translated = false) := by
  refine ⟨?_, rfl, ?_⟩
  · intro tokens n h
    unfold getNgrams
    have hz : tokens.length + 1 - n = 0 := by omega
    rw [hz]
    rfl
  · intro source translated
    cases h : detect source translated
    · exact Or.inr rfl
    · exact Or.inl rfl

/-- C6 witness: a concrete short token list produces no 3-grams, and the
empty translation still yields a boolean verdict. -/
theorem claim_C6_witness :
    (('h' : Char) :: ['i']) :: [] = [[('h' : Char), 'i']] ∧
      getNgrams [[('h' : Char), 'i']] 3 = [] :=
  ⟨rfl, claim_C6.1 [[('h' : Char), 'i']] 3 (by decide)⟩

theorem elongationScore_map_upper (x : List Char) :
    elongationScore (x.map upperChar) = elongationScore x := by
  unfold elongationScore
  rw [List.map_map]
  have h : x.map (lowerChar ∘ upperChar) = x.map lowerChar := by
    apply List.map_congr_left
    intro c _
    exact lowerChar_upperChar c
  rw [h]

theorem upperMap_ascii (c : Char) (h : c.toNat < 128) : upperMap c = [upperChar c] := by
  have hne : c ≠ 'ß' := by
    intro he
    rw [he] at h
    exact absurd h (by decide)
  unfold upperMap
  rw [if_neg hne]

theorem flatten_map_singleton (f : Char → Char) (l : List Char) :
    (l.map (fun c => [f c])).flatten = l.map f := by
  induction l with
  | nil => rfl
  | cons c t ih => simp [ih]

theorem pyUpper_ascii (text : List Char) (h : isAsciiText text = true) :
    pyUpper text = text.map upperChar := by
  unfold pyUpper
  unfold isAsciiText at h
  rw [List.all_eq_true] at h
  have hmap : text.map upperMap = text.map (fun c => [upperChar c]) := by
    apply List.map_congr_left
    intro c hc
    exact upperMap_ascii c (by simpa using h c hc)
  rw [hmap, flatten_map_singleton]

/-- C7 counterexample: uppercasing the source does change the verdict when
the full case mapping lengthens an elongation run.  With `source = 'ß' × 14`
and `translated = 'z' × 43`, the elongation scores are 14 against 43
(43 > 40 and 43 > 42), so `detect` answers true; uppercasing the source
yields 'S' × 28, whose score 28 defeats the 3x rule (43 < 84), and a
single-token translation undergoes no repetition check, so `detect` answers
false. -/
theorem claim_C7_counterexample :
    detect (List.replicate 14 'ß') (List.replicate 43 'z') = true ∧
      detect (pyUpper (List.replicate 14 'ß')) (List.replicate 43 'z') = false :=
  ⟨by decide, by decide⟩

/-- C7 (amended): the detector is case-insensitive on ASCII inputs — for
inputs all of whose characters are ASCII, uppercasing (with the full Python
case mapping) either the source or the translated text does not change the
verdict.  Outside ASCII, length-changing case mappings such as 'ß' to "SS"
can flip the verdict, as the counterexample shows. -/
theorem claim_C7 (source translated : List Char)
    (hs : isAsciiText source = true) (ht : isAsciiText translated = true) :
    detect (pyUpper source) translated = detect source translated ∧
    detect source (pyUpper translated) = detect source translated := by
  rw [pyUpper_ascii source hs, pyUpper_ascii translated ht]
  constructor
  · unfold detect hasExcessiveElongation hasPhraseRepetition
    rw [elongationScore_map_upper, tokenize_map_upper]
  · unfold detect hasExcessiveElongation hasPhraseRepetition
    rw [elongationScore_map_upper, tokenize_map_upper]

/-- C7 witness: a concrete ASCII pair on which uppercasing either side
leaves the verdict unchanged. -/
theorem claim_C7_witness :
    isAsciiText (("Go go go").toList) = true ∧
      isAsciiText (("hey ho").toList) = true ∧
      (detect (pyUpper (("Go go go").toList)) (("hey ho").toList) =
          detect (("Go go go").toList) (("hey ho").toList) ∧
        detect (("Go go go").toList) (pyUpper (("hey ho").toList)) =
          detect (("Go go go").toList) (("hey ho").toList)) :=
  ⟨by decide, by decide,
    claim_C7 (("Go go go").toList) (("hey ho").toList) (by decide) (by decide)⟩

/-- C9: on `source = "ciao ciao ciao ciao"`, `translated = "bye bye bye bye"`
the detector answers `false`: the translated unigram count 4 does not exceed
1.5 times the maximal source unigram count 4 (embedded comparison
`3 * 4 < 2 * 4`), and the translated consecutive run 4 does not exceed twice
the maximal source consecutive run 4. -/
theorem claim_C9 :
    detect (("ciao ciao ciao ciao").toList) (("bye bye bye bye").toList) = false ∧
    (getNgrams (tokenize (("bye bye bye bye").toList)) 1).count [("bye").toList] = 4 ∧
    maxCount (getNgrams (tokenize (("ciao ciao ciao ciao").toList)) 1) = 4 ∧
    ¬ (3 * maxCount (getNgrams (tokenize (("ciao ciao ciao ciao").toList)) 1) <
        2 * (getNgrams (tokenize (("bye bye bye bye").toList)) 1).count [("bye").toList]) ∧
    countMaxConsecutive (getNgrams (tokenize (("bye bye bye bye").toList)) 1)
      [("bye").toList] = 4 ∧
    countMaxConsecutiveAny (getNgrams (tokenize (("ciao ciao ciao ciao").toList)) 1) = 4 ∧
    ¬ (countMaxConsecutiveAny (getNgrams (tokenize (("ciao ciao ciao ciao").toList)) 1) * 2 <
        countMaxConsecutive (getNgrams (tokenize (("bye bye bye bye").toList)) 1)
          [("bye").toList]) := by
  refine ⟨by decide, by decide, by decide, by decide, by decide, by decide, by decide⟩

/-! Monotonicity lemmas about the consecutive-run counters, used for the
identity claim and the append-monotonicity claim. -/

theorem foldl_cmcStep_fst_le (target : List (List Char)) (l : List (List (List Char)))
    (p : ℕ × ℕ) : p.1 ≤ (l.foldl (cmcStep target) p).1 := by
  induction l generalizing p with
  | nil => exact le_refl _
  | cons g l ih =>
    rw [List.foldl_cons]
    refine le_trans ?_ (ih (cmcStep target p g))
    unfold cmcStep
    split <;> simp

theorem cmc_window_ge3 (l : List (List (List Char))) (g : List (List Char)) (i : ℕ)
    (h : (l.drop i).take 3 = [g, g, g]) : 3 ≤ countMaxConsecutive l g := by
  have hsplit : l = l.take i ++ ([g, g, g] ++ (l.drop i).drop 3) := by
    conv_lhs => rw [← List.take_append_drop i l]
    congr 1
    conv_lhs => rw [← List.take_append_drop 3 (l.drop i)]
    rw [h]
  rw [hsplit]
  unfold countMaxConsecutive
  rw [List.foldl_append, List.foldl_append]
  refine le_trans ?_ (foldl_cmcStep_fst_le g _ _)
  obtain ⟨mx, cur⟩ := (l.take i).foldl (cmcStep g) (0, 0)
  show 3 ≤ (cmcStep g (cmcStep g (cmcStep g (mx, cur) g) g) g).1
  unfold cmcStep
  rw [if_pos rfl]
  dsimp only
  rw [if_pos rfl]
  dsimp only
  rw [if_pos rfl]
  dsimp only
  omega

theorem cmc_le_cmcAny (l : List (List (List Char))) (g : List (List Char)) :
    countMaxConsecutive l g ≤ countMaxConsecutiveAny l := by
  cases l with
  | nil => simp [countMaxConsecutive, countMaxConsecutiveAny]
  | cons a rest =>
    have main : ∀ (m : List (List (List Char))) (pm pc qm qc : ℕ) (qp : List (List Char)),
        pm ≤ qm → 1 ≤ qm → pc ≤ qc → (0 < pc → qp = g) →
        (m.foldl (cmcStep g) (pm, pc)).1 ≤ (m.foldl cmcAnyStep (qm, qc, qp)).1 := by
      intro m
      induction m with
      | nil =>
        intro pm pc qm qc qp h1 _ _ _
        exact h1
      | cons x m ih =>
        intro pm pc qm qc qp h1 h2 h3 h4
        rw [List.foldl_cons, List.foldl_cons]
        by_cases hxg : x = g
        · by_cases hxp : x = qp
          · have e1 : cmcStep g (pm, pc) x = (pm ⊔ (pc + 1), pc + 1) := by
              unfold cmcStep
              rw [if_pos hxg]
            have e2 : cmcAnyStep (qm, qc, qp) x = (qm ⊔ (qc + 1), qc + 1, qp) := by
              unfold cmcAnyStep
              rw [if_pos hxp]
            rw [e1, e2]
            exact ih _ _ _ _ _ (by omega) (by omega) (by omega)
              (fun _ => by rw [← hxp, hxg])
          · have hp2 : pc = 0 := by
              by_contra hne
              have hq := h4 (Nat.pos_of_ne_zero hne)
              exact hxp (by rw [hxg, hq])
            have e1 : cmcStep g (pm, pc) x = (pm ⊔ (pc + 1), pc + 1) := by
              unfold cmcStep
              rw [if_pos hxg]
            have e2 : cmcAnyStep (qm, qc, qp) x = (qm, 1, x) := by
              unfold cmcAnyStep
              rw [if_neg hxp]
            rw [e1, e2]
            exact ih _ _ _ _ _ (by omega) h2 (by omega) (fun _ => hxg)
        · by_cases hxp : x = qp
          · have e1 : cmcStep g (pm, pc) x = (pm, 0) := by
              unfold cmcStep
              rw [if_neg hxg]
            have e2 : cmcAnyStep (qm, qc, qp) x = (qm ⊔ (qc + 1), qc + 1, qp) := by
              unfold cmcAnyStep
              rw [if_pos hxp]
            rw [e1, e2]
            exact ih _ _ _ _ _ (by omega) (by omega) (by omega)
              (fun hc => absurd hc (by omega))
          · have e1 : cmcStep g (pm, pc) x = (pm, 0) := by
              unfold cmcStep
              rw [if_neg hxg]
            have e2 : cmcAnyStep (qm, qc, qp) x = (qm, 1, x) := by
              unfold cmcAnyStep
              rw [if_neg hxp]
            rw [e1, e2]
            exact ih _ _ _ _ _ (by omega) h2 (by omega)
              (fun hc => absurd hc (by omega))
    unfold countMaxConsecutive countMaxConsecutiveAny
    rw [List.foldl_cons]
    by_cases hag : a = g
    · have hstep : cmcStep g (0, 0) a = (1, 1) := by
        unfold cmcStep
        rw [if_pos hag]
        rfl
      rw [hstep]
      exact main rest 1 1 1 1 a (le_refl 1) (le_refl 1) (le_refl 1) (fun _ => hag)
    · have hstep : cmcStep g (0, 0) a = (0, 0) := by
        unfold cmcStep
        rw [if_neg hag]
      rw [hstep]
      exact main rest 0 0 1 1 a (by omega) (le_refl 1) (by omega)
        (fun hc => absurd hc (by omega))

theorem freqCheck_self_false (tN : List (List (List Char))) (n : ℕ) :
    freqCheck tN tN n = false := by
  rw [freqCheck_eq_collapsed, Bool.eq_false_iff]
  intro h
  obtain ⟨g, hg, _, hlt⟩ := (freqCheckCollapsed_iff tN tN).mp h
  have hle := count_le_maxCount tN g hg
  omega

theorem consecCheck_self_false (tN : List (List (List Char))) :
    consecCheck tN tN = false := by
  rw [Bool.eq_false_iff]
  intro h
  obtain ⟨g, ⟨i, hwin⟩, himpl⟩ := (consecCheck_iff tN tN).mp h
  have h3 : 3 ≤ countMaxConsecutive tN g := cmc_window_ge3 tN g i hwin
  have hle : countMaxConsecutive tN g ≤ countMaxConsecutiveAny tN := cmc_le_cmcAny tN g
  have hM : 3 ≤ countMaxConsecutiveAny tN := le_trans h3 hle
  have := himpl hM
  omega

theorem hasNgramRepetition_self_false (tTokens : List (List Char)) (n : ℕ) :
    hasNgramRepetition tTokens tTokens n = false := by
  unfold hasNgramRepetition
  rw [freqCheck_self_false, consecCheck_self_false]
  rfl

theorem hasExcessiveElongation_self_false (t : List Char) :
    hasExcessiveElongation t t = false := by
  unfold hasExcessiveElongation
  have h2 : decide (3 * elongationScore t < elongationScore t) = false := by
    simp only [decide_eq_false_iff_not]
    omega
  rw [h2, Bool.and_false]

/-- C10: the identity translation is never flagged: `detect s s = false` for
every string `s`. -/
theorem claim_C10 (s : List Char) : detect s s = false := by
  unfold detect
  rw [hasExcessiveElongation_self_false]
  have hp : hasPhraseRepetition s s = false := by
    unfold hasPhraseRepetition
    rw [Bool.eq_false_iff]
    intro h
    obtain ⟨n, _, hp⟩ := List.any_eq_true.mp h
    rw [hasNgramRepetition_self_false] at hp
    cases hp
  rw [hp]
  rfl

/-! Monotonicity under appending further duplicate words to the translation:
tokenization splits at the inserted space, every translated n-gram of the
original text survives as a prefix of the extended n-gram sequence, counts
and consecutive runs only grow, and the elongation score only grows. -/

theorem splitAux_append_space (a : List Char) :
    ∀ (cur b : List Char), splitAux (a ++ ' ' :: b) cur = splitAux a cur ++ pySplit b := by
  have hsp : isSpaceChar ' ' = true := rfl
  induction a with
  | nil =>
    intro cur b
    show splitAux (' ' :: b) cur = splitAux [] cur ++ pySplit b
    by_cases h : cur = []
    · subst h
      simp [splitAux, hsp, pySplit]
    · simp [splitAux, hsp, pySplit, if_neg h]
  | cons c a ih =>
    intro cur b
    show splitAux (c :: (a ++ ' ' :: b)) cur = splitAux (c :: a) cur ++ pySplit b
    simp only [splitAux]
    by_cases hc : isSpaceChar c
    · rw [if_pos hc, if_pos hc]
      by_cases h : cur = []
      · rw [if_pos h, if_pos h]
        exact ih [] b
      · rw [if_neg h, if_neg h, List.cons_append]
        rw [ih [] b]
    · rw [if_neg hc, if_neg hc]
      exact ih (c :: cur) b

theorem tokenize_append_space (t b : List Char) :
    tokenize (t ++ ' ' :: b) = tokenize t ++ tokenize b := by
  unfold tokenize pySplit
  rw [splitAux_append_space t [] b, List.map_append]
  rfl

theorem scoreEntry_mono (c : Char) (j : ℕ) : scoreEntry (c, j) ≤ scoreEntry (c, j + 1) := by
  unfold scoreEntry
  by_cases ha : isAlnumChar c = true
  · by_cases h3 : (3 : ℕ) ≤ j
    · rw [if_pos ⟨h3, ha⟩, if_pos ⟨by omega, ha⟩]
      omega
    · rw [if_neg (fun hh => h3 hh.1)]
      exact Nat.zero_le _
  · rw [if_neg (fun hh => ha hh.2), if_neg (fun hh => ha hh.2)]

theorem scoreOfRuns_runsAux_ge_entry (x : List Char) :
    ∀ (c : Char) (j : ℕ), scoreEntry (c, j) ≤ scoreOfRuns (runsAux c j x) := by
  induction x with
  | nil =>
    intro c j
    simp [runsAux, scoreOfRuns]
  | cons d rest ih =>
    intro c j
    show scoreEntry (c, j) ≤
      scoreOfRuns (if d = c then runsAux c (j + 1) rest else (c, j) :: runsAux d 1 rest)
    by_cases h : d = c
    · rw [if_pos h]
      exact le_trans (scoreEntry_mono c j) (ih c (j + 1))
    · rw [if_neg h]
      unfold scoreOfRuns
      rw [List.map_cons, List.sum_cons]
      exact Nat.le_add_right _ _

theorem scoreOfRuns_runsAux_append (l : List Char) :
    ∀ (x : List Char) (c : Char) (j : ℕ),
      scoreOfRuns (runsAux c j l) ≤ scoreOfRuns (runsAux c j (l ++ x)) := by
  induction l with
  | nil =>
    intro x c j
    show scoreOfRuns [(c, j)] ≤ scoreOfRuns (runsAux c j x)
    have h := scoreOfRuns_runsAux_ge_entry x c j
    simpa [scoreOfRuns] using h
  | cons d rest ih =>
    intro x c j
    show scoreOfRuns (if d = c then runsAux c (j + 1) rest else (c, j) :: runsAux d 1 rest) ≤
      scoreOfRuns
        (if d = c then runsAux c (j + 1) (rest ++ x) else (c, j) :: runsAux d 1 (rest ++ x))
    by_cases h : d = c
    · rw [if_pos h, if_pos h]
      exact ih x c (j + 1)
    · rw [if_neg h, if_neg h]
      unfold scoreOfRuns
      rw [List.map_cons, List.sum_cons, List.map_cons, List.sum_cons]
      have hr := ih x d 1
      unfold scoreOfRuns at hr
      omega

theorem elongationScore_le_append (t u : List Char) :
    elongationScore t ≤ elongationScore (t ++ u) := by
  unfold elongationScore
  rw [List.map_append]
  cases hm : t.map lowerChar with
  | nil =>
    rw [List.nil_append]
    exact Nat.zero_le _
  | cons c rest =>
    rw [List.cons_append]
    show scoreOfRuns (runsAux c 1 rest) ≤ scoreOfRuns (runsAux c 1 (rest ++ u.map lowerChar))
    exact scoreOfRuns_runsAux_append rest (u.map lowerChar) c 1

theorem getNgrams_append (T X : List (List Char)) (n : ℕ) :
    ∃ Y, getNgrams (T ++ X) n = getNgrams T n ++ Y := by
  unfold getNgrams
  have hsplit : (T ++ X).length + 1 - n =
      (T.length + 1 - n) + ((T ++ X).length + 1 - n - (T.length + 1 - n)) := by
    rw [List.length_append]
    omega
  rw [hsplit, List.range_add, List.map_append]
  refine ⟨List.map (fun i => ((T ++ X).drop i).take n)
    (List.map (fun x => T.length + 1 - n + x)
      (List.range ((T ++ X).length + 1 - n - (T.length + 1 - n)))), ?_⟩
  congr 1
  apply List.map_congr_left
  intro i hi
  rw [List.mem_range] at hi
  have hin : i + n ≤ T.length := by omega
  rw [List.drop_append_of_le_length (by omega),
    List.take_append_of_le_length (by rw [List.length_drop]; omega)]

theorem freqCheck_append (tN Y sN : List (List (List Char))) (n : ℕ)
    (h : freqCheck tN sN n = true) : freqCheck (tN ++ Y) sN n = true := by
  rw [freqCheck_eq_collapsed, freqCheckCollapsed_iff] at h ⊢
  obtain ⟨g, hg, h3, hr⟩ := h
  refine ⟨g, List.mem_append_left _ hg, ?_, ?_⟩
  · exact le_trans h3 (by rw [List.count_append]; omega)
  · rw [List.count_append]
    omega

theorem consecCheck_append (tN Y sN : List (List (List Char)))
    (h : consecCheck tN sN = true) : consecCheck (tN ++ Y) sN = true := by
  rw [consecCheck_iff] at h ⊢
  obtain ⟨g, ⟨i, hwin⟩, himpl⟩ := h
  have hwlen := congrArg List.length hwin
  rw [List.length_take, List.length_drop] at hwlen
  simp only [List.length_cons, List.length_nil] at hwlen
  refine ⟨g, ⟨i, ?_⟩, ?_⟩
  · rw [List.drop_append_of_le_length (by omega),
      List.take_append_of_le_length (by rw [List.length_drop]; omega), hwin]
  · intro hM
    have h1 := himpl hM
    have h2 : countMaxConsecutive tN g ≤ countMaxConsecutive (tN ++ Y) g := by
      unfold countMaxConsecutive
      rw [List.foldl_append]
      exact foldl_cmcStep_fst_le g Y _
    omega

/-- C8: appending further whitespace-separated copies of a word to an
already-flagged translation keeps the verdict `true` (monotonicity in excess
repetition, source held fixed). -/
theorem claim_C8 (source translated w : List Char) (k : ℕ) (hk : 1 ≤ k)
    (h : detect source translated = true) :
    detect source (appendCopies translated w k) = true := by
  obtain ⟨b, hb⟩ : ∃ b, appendCopies translated w k = translated ++ ' ' :: b := by
    cases k with
    | zero => omega
    | succ k' =>
      refine ⟨w ++ (List.replicate k' (' ' :: w)).flatten, ?_⟩
      unfold appendCopies
      rw [List.replicate_succ, List.flatten_cons, List.cons_append]
  rw [hb]
  unfold detect at h ⊢
  rw [Bool.or_eq_true] at h ⊢
  rcases h with he | hp
  · left
    unfold hasExcessiveElongation at he ⊢
    rw [Bool.and_eq_true, decide_eq_true_eq, decide_eq_true_eq] at he ⊢
    have hmono := elongationScore_le_append translated (' ' :: b)
    exact ⟨by omega, by omega⟩
  · right
    rw [hasPhraseRepetition_iff] at hp ⊢
    obtain ⟨n, h1, h2, hrep⟩ := hp
    have hXt := tokenize_append_space translated b
    refine ⟨n, h1, ?_, ?_⟩
    · rw [hXt, List.length_append]
      omega
    · rw [hXt]
      unfold hasNgramRepetition at hrep ⊢
      obtain ⟨Y, hY⟩ := getNgrams_append (tokenize translated) (tokenize b) n
      rw [hY]
      rw [Bool.or_eq_true] at hrep ⊢
      rcases hrep with hf | hc
      · exact Or.inl (freqCheck_append _ Y _ n hf)
      · exact Or.inr (consecCheck_append _ Y _ hc)

/-- C8 witness: a concretely flagged translation stays flagged after one more
appended word. -/
theorem claim_C8_witness :
    detect (('a' : Char) :: []) (("go go go").toList) = true ∧
      1 ≤ 1 ∧
      detect (('a' : Char) :: [])
        (appendCopies (("go go go").toList) (("hi").toList) 1) = true :=
  ⟨by decide, le_refl 1,
    claim_C8 (('a' : Char) :: []) (("go go go").toList) (("hi").toList) 1
      (le_refl 1) (by decide)⟩

end Stammering
